import Mathlib

/-!
Shallow embedding of the `sst` repository (a minimal Sorted String Table):
`src/writer.rs` (DataBlock, IndexEntry, SstWriter) and `src/reader.rs`
(IndexEntryInfo, SstReader).  Bytes are `Fin 256`; byte buffers are lists.
the Rust checked slice indexing (which panics when out of range) is modelled by
the `crash` outcome of `RustRes`; fallible I/O is modelled by explicit error
constructors.  All integers written to disk go through `natToLe`, which
truncates exactly like the Rust `as u32` / `to_le_bytes` casts.
-/

namespace Sst

abbrev Byte := Fin 256

abbrev Bytes := List Byte

abbrev KV := Bytes × Bytes

/-- Rust lexicographic strict order on byte slices (`a < b` for `&[u8]`). -/
def lexLt : Bytes → Bytes → Bool
  | _, [] => false
  | [], _ :: _ => true
  | a :: as, b :: bs => if a.val < b.val then true else if b.val < a.val then false else lexLt as bs

/-- Rust `a >= b` on byte slices: the negation of `a < b`. -/
def lexGe (a b : Bytes) : Bool := !(lexLt a b)

/-- Rust `a <= b` on byte slices. -/
def lexLe (a b : Bytes) : Bool := !(lexLt b a)

/-- Little-endian encoding of a natural number into `w` bytes, truncating
modulo `2 ^ (8 * w)` exactly as the Rust `as u32` / `as u64` + `to_le_bytes`. -/
def natToLe : Nat → Nat → Bytes
  | 0, _ => []
  | w + 1, n => ⟨n % 256, Nat.mod_lt _ (by omega)⟩ :: natToLe w (n / 256)

/-- Little-endian decoding of a byte buffer (Rust `uXX::from_le_bytes`). -/
def leToNat : Bytes → Nat
  | [] => 0
  | b :: bs => b.val + 256 * leToNat bs

/-- Serialization of one key-value pair inside a data block:
`key_len: u32 LE`, key bytes, `val_len: u32 LE`, value bytes. -/
def serKV (p : KV) : Bytes :=
  natToLe 4 p.1.length ++ p.1 ++ natToLe 4 p.2.length ++ p.2

/-- In-memory representation of a data block (`struct DataBlock`). -/
structure DataBlock where
  entries : List KV
  size : Nat
  deriving Repr, DecidableEq

/-- Embedding of `DataBlock::new`. -/
def DataBlock.new : DataBlock := { entries := [], size := 0 }

/-- Embedding of `DataBlock::add`: charge `8 + key.len() + value.len()` to the size
estimate and push the pair. -/
def DataBlock.add (b : DataBlock) (key value : Bytes) : DataBlock :=
  { entries := b.entries ++ [(key, value)]
    size := b.size + (8 + key.length + value.length) }

/-- Embedding of `DataBlock::last_key`. -/
def DataBlock.last_key (b : DataBlock) : Option Bytes :=
  b.entries.getLast?.map (fun p => p.1)

/-- Embedding of `DataBlock::to_bytes`: `[num_entries: u32][key1_len: u32][key1][val1_len: u32][val1]...`
(the `num_entries` field is the Rust `len() as u32` truncation, which
`natToLe 4` performs). -/
def DataBlock.to_bytes (b : DataBlock) : Bytes :=
  natToLe 4 b.entries.length ++ (b.entries.map serKV).flatten

/-- Writer-side index entry (`struct IndexEntry`). -/
structure IndexEntry where
  last_key : Bytes
  block_offset : Nat
  block_size : Nat
  deriving Repr, DecidableEq

/-- Embedding of `IndexEntry::to_bytes`: `[last_key_len: u32][last_key][block_offset: u64][block_size: u64]`. -/
def IndexEntry.to_bytes (e : IndexEntry) : Bytes :=
  natToLe 4 e.last_key.length ++ e.last_key ++ natToLe 8 e.block_offset ++ natToLe 8 e.block_size

/-- Embedding of `struct SstWriter`.  The `BufWriter<File>` is modelled as the list of
bytes written so far (`filedata`). -/
structure SstWriter where
  filedata : Bytes
  current_block : DataBlock
  index : List IndexEntry
  offset : Nat
  block_size_threshold : Nat
  deriving Repr, DecidableEq

/-- Embedding of `SstWriter::new` (file creation/truncation succeeds; the fresh state). -/
def SstWriter.new : SstWriter :=
  { filedata := []
    current_block := DataBlock.new
    index := []
    offset := 0
    block_size_threshold := 4096 }

/-- Embedding of `SstWriter::flush_block`: no-op on an empty current block; otherwise
write the serialized block, record an index entry at the current offset,
advance the offset, and start a fresh block.  (The `none` branch of the
match is unreachable: a non-empty block has a last key, so the Rust
`unwrap()` never panics.) -/
def SstWriter.flush_block (w : SstWriter) : SstWriter :=
  if w.current_block.entries.isEmpty then w
  else
    match w.current_block.last_key with
    | none => w
    | some lk =>
        let block_bytes := w.current_block.to_bytes
        { filedata := w.filedata ++ block_bytes
          current_block := DataBlock.new
          index := w.index ++ [{ last_key := lk, block_offset := w.offset, block_size := block_bytes.length }]
          offset := w.offset + block_bytes.length
          block_size_threshold := w.block_size_threshold }

/-- Embedding of `SstWriter::add`: append to the current block, then flush when the size
estimate reaches the threshold. -/
def SstWriter.add (w : SstWriter) (key value : Bytes) : SstWriter :=
  let w1 : SstWriter := { w with current_block := w.current_block.add key value }
  if w1.current_block.size ≥ w1.block_size_threshold then w1.flush_block else w1

/-- Serialization of the index block written by `finish`:
`[num_entries: u32]` followed by each entry, serialized. -/
def serIndexBlock (index : List IndexEntry) : Bytes :=
  natToLe 4 index.length ++ (index.map IndexEntry.to_bytes).flatten

/-- The magic number `0xDEADBEEFCAFEBABE`. -/
def MAGIC : Nat := 0xDEADBEEFCAFEBABE

/-- Embedding of `SstWriter::finish`: flush the current block, then append the index
block and the footer `[index_offset: u64][index_size: u64][magic: u64]`.
Returns the complete file contents. -/
def SstWriter.finish (w : SstWriter) : Bytes :=
  let w1 := w.flush_block
  let index_block_offset := w1.offset
  let index_bytes := serIndexBlock w1.index
  let index_block_size := index_bytes.length
  w1.filedata ++ index_bytes ++
    natToLe 8 index_block_offset ++ natToLe 8 index_block_size ++ natToLe 8 MAGIC

/-- Feeding a list of pairs to the writer by repeated `add` (the caller
pattern of `main.rs`). -/
def writeAll (w : SstWriter) (ps : List KV) : SstWriter :=
  ps.foldl (fun acc p => acc.add p.1 p.2) w

/-! ### Reader (`src/reader.rs`)

the Rust checked slice indexing (`buf[0..4]`, `buf[..key_len]`, `buf[val_len..]`)
panics when the range exceeds the slice; `RustRes.crash` models that panic.
The reader functions return `Ok` on every path they complete, so `crash`
is the only non-`ok` outcome of the pure parsing code. -/

/-- Outcome of pure Rust code whose only failure mode is an
index-out-of-bounds panic. -/
inductive RustRes (α : Type) where
  | ok : α → RustRes α
  | crash : RustRes α
  deriving Repr, DecidableEq

/-- Reader-side index entry (`struct IndexEntryInfo`). -/
structure IndexEntryInfo where
  last_key : Bytes
  block_offset : Nat
  block_size : Nat
  deriving Repr, DecidableEq

/-- The loop body of `SstReader::parse_index`, iterated `num_entries`
times over the remaining buffer.  Each round reads
`[key_len: u32][last_key][block_offset: u64][block_size: u64]`,
crashing exactly where the Rust slice indexing would panic. -/
def parseIndexLoop : Nat → Bytes → RustRes (List IndexEntryInfo)
  | 0, _ => .ok []
  | n + 1, buf =>
      if 4 ≤ buf.length then
        let key_len := leToNat (buf.take 4)
        let b1 := buf.drop 4
        if key_len ≤ b1.length then
          let last_key := b1.take key_len
          let b2 := b1.drop key_len
          if 8 ≤ b2.length then
            let block_offset := leToNat (b2.take 8)
            let b3 := b2.drop 8
            if 8 ≤ b3.length then
              let block_size := leToNat (b3.take 8)
              let b4 := b3.drop 8
              match parseIndexLoop n b4 with
              | .ok rest => .ok ({ last_key := last_key, block_offset := block_offset, block_size := block_size } :: rest)
              | .crash => .crash
            else .crash
          else .crash
        else .crash
      else .crash

/-- Embedding of `SstReader::parse_index`: read `num_entries: u32` then that many
index entries from the front of the buffer (trailing bytes are ignored). -/
def SstReader.parse_index (buf : Bytes) : RustRes (List IndexEntryInfo) :=
  if 4 ≤ buf.length then
    parseIndexLoop (leToNat (buf.take 4)) (buf.drop 4)
  else .crash

/-- The loop body of `SstReader::search_in_block`: for each entry read
`[key_len: u32][key][val_len: u32]`, return the value bytes on an exact
key match, otherwise skip the value and continue. -/
def searchLoop : Nat → Bytes → Bytes → RustRes (Option Bytes)
  | 0, _, _ => .ok none
  | n + 1, buf, search_key =>
      if 4 ≤ buf.length then
        let key_len := leToNat (buf.take 4)
        let b1 := buf.drop 4
        if key_len ≤ b1.length then
          let key := b1.take key_len
          let b2 := b1.drop key_len
          if 4 ≤ b2.length then
            let val_len := leToNat (b2.take 4)
            let b3 := b2.drop 4
            if key = search_key then
              if val_len ≤ b3.length then .ok (some (b3.take val_len)) else .crash
            else
              if val_len ≤ b3.length then searchLoop n (b3.drop val_len) search_key else .crash
          else .crash
        else .crash
      else .crash

/-- Embedding of `SstReader::search_in_block`: read `num_entries: u32`, then scan. -/
def SstReader.search_in_block (buf : Bytes) (search_key : Bytes) : RustRes (Option Bytes) :=
  if 4 ≤ buf.length then
    searchLoop (leToNat (buf.take 4)) (buf.drop 4) search_key
  else .crash

/-- Embedding of `struct SstReader`: the bytes of the opened file plus the in-memory index. -/
structure SstReader where
  file : Bytes
  index : List IndexEntryInfo
  deriving Repr, DecidableEq

/-- Outcome of `SstReader::open`: a reader, a generic I/O error (failed
seek or short read), the distinct `InvalidData` format error for a bad
magic number, or a panic inside `parse_index`. -/
inductive OpenRes where
  | ok : SstReader → OpenRes
  | ioErr : OpenRes
  | invalidData : OpenRes
  | crash : OpenRes
  deriving Repr, DecidableEq

/-- Embedding of `SstReader::open` on the bytes of a file: seek to the last 24 bytes (an
I/O error when the file is shorter), read the footer, validate the magic
number (`InvalidData` on mismatch), then read exactly `index_size` bytes
at `index_offset` (an I/O error when the file has fewer) and parse them. -/
def SstReader.open (file : Bytes) : OpenRes :=
  if file.length < 24 then .ioErr
  else
    let footer := file.drop (file.length - 24)
    let magic := leToNat (footer.drop 16)
    if magic ≠ MAGIC then .invalidData
    else
      let index_offset := leToNat (footer.take 8)
      let index_size := leToNat ((footer.drop 8).take 8)
      if file.length - index_offset < index_size then .ioErr
      else
        let index_buf := (file.drop index_offset).take index_size
        match SstReader.parse_index index_buf with
        | .ok index => .ok { file := file, index := index }
        | .crash => .crash

/-- Outcome of `SstReader::get`. -/
inductive GetRes where
  | ok : Option Bytes → GetRes
  | ioErr : GetRes
  | crash : GetRes
  deriving Repr, DecidableEq

/-- Embedding of `SstReader::get`: linearly scan the index for the first entry with
`last_key >= key`; on a hit read exactly `block_size` bytes at
`block_offset` (an I/O error when the file has fewer) and scan the block. -/
def SstReader.get (r : SstReader) (key : Bytes) : GetRes :=
  match r.index.find? (fun e => lexGe e.last_key key) with
  | none => .ok none
  | some info =>
      if r.file.length - info.block_offset < info.block_size then .ioErr
      else
        match SstReader.search_in_block ((r.file.drop info.block_offset).take info.block_size) key with
        | .ok v => .ok v
        | .crash => .crash

/-- The end-to-end caller pattern of `main.rs`: open the file, then `get`. -/
def openThenGet (file : Bytes) (key : Bytes) : Option GetRes :=
  match SstReader.open file with
  | .ok r => some (r.get key)
  | _ => none

/-! ### Ghost definitions used to state the invariants

These are not part of the Rust source; they name the intermediate data the
writer loop builds (the partition of the input into blocks, the serialized
bytes of a block, the index the writer accumulates), so the invariants can
be stated about them. -/

/-- Serialized bytes of a block holding the given entries
(`DataBlock.to_bytes` is exactly this applied to `b.entries`). -/
def serBlock (es : List KV) : Bytes :=
  natToLe 4 es.length ++ (es.map serKV).flatten

/-- Concatenation of the serialized data blocks, in flush order. -/
def blocksBytes (bs : List (List KV)) : Bytes :=
  (bs.map serBlock).flatten

/-- The last key of the entry list of a block (defaulting on the empty block,
which the writer never flushes). -/
def lastKeyD (es : List KV) : Bytes :=
  (es.getLast?.map (fun p => p.1)).getD []

/-- The index the writer accumulates for blocks `bs` flushed starting at
file offset `off`: one entry per block, recording its last key, offset and
serialized size. -/
def mkIndex : List (List KV) → Nat → List IndexEntry
  | [], _ => []
  | es :: rest, off =>
      { last_key := lastKeyD es, block_offset := off, block_size := (serBlock es).length }
        :: mkIndex rest (off + (serBlock es).length)

/-- The writer-side index entry seen through the parser of the reader. -/
def toInfo (e : IndexEntry) : IndexEntryInfo :=
  { last_key := e.last_key, block_offset := e.block_offset, block_size := e.block_size }

/-- The size estimate `DataBlock.add` accumulates: `8 + key.len + val.len`
per pair. -/
def charge (es : List KV) : Nat :=
  es.foldr (fun p a => 8 + p.1.length + p.2.length + a) 0

/-- The state invariant of `SstWriter` as reached from `SstWriter::new` by
`add` calls: `bs` is the list of blocks flushed so far (in flush order). -/
structure WInv (w : SstWriter) (bs : List (List KV)) : Prop where
  thresh : w.block_size_threshold = 4096
  size_eq : w.current_block.size = charge w.current_block.entries
  size_lt : w.current_block.size < 4096
  data_eq : w.filedata = blocksBytes bs
  idx_eq : w.index = mkIndex bs 0
  off_eq : w.offset = w.filedata.length
  blocks_ne : ∀ b ∈ bs, b ≠ []
  blocks_len : ∀ b ∈ bs, b.length ≤ 512

/-! ### Basic lemmas about the byte codec and the lexicographic order -/

theorem length_natToLe (w n : Nat) : (natToLe w n).length = w := by
  induction w generalizing n with
  | zero => rfl
  | succ w ih => simp [natToLe, ih]

theorem leToNat_natToLe (w n : Nat) : leToNat (natToLe w n) = n % 256 ^ w := by
  induction w generalizing n with
  | zero => simp [natToLe, leToNat, Nat.mod_one]
  | succ w ih =>
      simp only [natToLe, leToNat, ih]
      rw [Nat.pow_succ, Nat.mul_comm (256 ^ w) 256, Nat.mod_mul]

theorem leToNat_natToLe_of_lt {w n : Nat} (h : n < 256 ^ w) :
    leToNat (natToLe w n) = n := by
  rw [leToNat_natToLe, Nat.mod_eq_of_lt h]

theorem leToNat_lt (bs : Bytes) : leToNat bs < 256 ^ bs.length := by
  induction bs with
  | nil => simp [leToNat]
  | cons b t ih =>
      have hb := b.isLt
      simp only [leToNat, List.length_cons, Nat.pow_succ]
      calc b.val + 256 * leToNat t < 256 + 256 * leToNat t := by omega
        _ ≤ 256 * (leToNat t + 1) := by ring_nf; omega
        _ ≤ 256 * 256 ^ t.length := by
              have : leToNat t + 1 ≤ 256 ^ t.length := ih
              exact Nat.mul_le_mul_left _ this
        _ = 256 ^ t.length * 256 := by ring

theorem lexLt_irrefl (a : Bytes) : lexLt a a = false := by
  induction a with
  | nil => rfl
  | cons x xs ih => simp [lexLt, ih]

theorem lexLt_trans {a b c : Bytes} (hab : lexLt a b = true) (hbc : lexLt b c = true) :
    lexLt a c = true := by
  induction a generalizing b c with
  | nil =>
      cases c with
      | nil => cases b <;> simp [lexLt] at hab hbc
      | cons z cs => simp [lexLt]
  | cons x xs ih =>
      cases b with
      | nil => simp [lexLt] at hab
      | cons y bs =>
          cases c with
          | nil => simp [lexLt] at hbc
          | cons z cs =>
              simp only [lexLt] at hab hbc ⊢
              split_ifs at hab hbc ⊢ with h1 h2 h3 h4 h5 h6 <;>
                first
                | rfl
                | omega
                | (exact ih hab hbc)

theorem lexLt_antisymm {a b : Bytes} (hab : lexLt a b = false) (hba : lexLt b a = false) :
    a = b := by
  induction a generalizing b with
  | nil =>
      cases b with
      | nil => rfl
      | cons y bs => simp [lexLt] at hab
  | cons x xs ih =>
      cases b with
      | nil => simp [lexLt] at hba
      | cons y bs =>
          simp only [lexLt] at hab hba
          by_cases h1 : x.val < y.val
          · simp [h1] at hab
          · by_cases h2 : y.val < x.val
            · simp [h1, h2] at hba
            · simp [h1, h2] at hab hba
              have hx : x = y := Fin.ext (by omega)
              rw [hx, ih hab hba]

theorem lexLe_refl (a : Bytes) : lexLe a a = true := by
  simp [lexLe, lexLt_irrefl]

theorem lexLe_trans {a b c : Bytes} (hab : lexLe a b = true) (hbc : lexLe b c = true) :
    lexLe a c = true := by
  have h1 : lexLt b a = false := by simpa [lexLe] using hab
  have h2 : lexLt c b = false := by simpa [lexLe] using hbc
  have h3 : lexLt c a = false := by
    by_cases hca : lexLt c a = true
    · by_cases hbc2 : lexLt b c = true
      · have hba := lexLt_trans hbc2 hca
        rw [h1] at hba
        cases hba
      · have heq : b = c := lexLt_antisymm (by simpa using hbc2) h2
        rw [heq] at h1
        rw [h1] at hca
        cases hca
    · simpa using hca
  simpa [lexLe] using h3

theorem lexGe_eq_not_lexLt (a b : Bytes) : lexGe a b = !(lexLt a b) := rfl

theorem lexLe_of_lexGe {a b : Bytes} (h : lexGe a b = true) : lexLe b a = true := h

theorem lexGe_of_lexLe {a b : Bytes} (h : lexLe a b = true) : lexGe b a = true := h

theorem lexLe_antisymm {a b : Bytes} (hab : lexLe a b = true) (hba : lexLe b a = true) :
    a = b := by
  simp only [lexLe, Bool.not_eq_true'] at hab hba
  exact lexLt_antisymm hba hab

theorem lexLe_of_not_lexGe {a b : Bytes} (h : lexGe a b = false) : lexLe a b = true := by
  simp only [lexGe, Bool.not_eq_false'] at h
  simp only [lexLe, Bool.not_eq_true']
  by_cases hba : lexLt b a = true
  · have := lexLt_trans h hba
    rw [lexLt_irrefl] at this
    cases this
  · simpa using hba

theorem not_lexLe_of_lexLt {a b : Bytes} (h : lexLt a b = true) : lexLe b a = false := by
  simp [lexLe, h]

/-! ### Writer (`src/writer.rs`) -/

/-! ### Buffer segment lemmas -/

theorem take_natToLe_append (w n : Nat) (r : Bytes) :
    ((natToLe w n) ++ r).take w = natToLe w n := by
  have h := List.take_left (natToLe w n) r
  rwa [length_natToLe] at h

theorem drop_natToLe_append (w n : Nat) (r : Bytes) :
    ((natToLe w n) ++ r).drop w = r := by
  have h := List.drop_left (natToLe w n) r
  rwa [length_natToLe] at h

theorem le_length_natToLe_append (w n : Nat) (r : Bytes) :
    w ≤ ((natToLe w n) ++ r).length := by
  simp [List.length_append, length_natToLe]

theorem pow_256_4 : (256 : Nat) ^ 4 = 2 ^ 32 := by norm_num

theorem pow_256_8 : (256 : Nat) ^ 8 = 2 ^ 64 := by norm_num

/-! ### Round-trip of the index codec and the block scan -/

theorem le_length_bytes_append (a r : Bytes) : a.length ≤ (a ++ r).length := by
  simp

theorem parseIndexLoop_ser (es : List IndexEntry) : ∀ (rest : Bytes),
    (∀ e ∈ es, e.last_key.length < 2 ^ 32 ∧ e.block_offset < 2 ^ 64 ∧ e.block_size < 2 ^ 64) →
    parseIndexLoop es.length ((es.map IndexEntry.to_bytes).flatten ++ rest) =
      .ok (es.map toInfo) := by
  induction es with
  | nil => intro rest hb; rfl
  | cons e es ih =>
      intro rest hb
      obtain ⟨hk, ho, hs⟩ := hb e (List.mem_cons_self e es)
      have hk4 : e.last_key.length < 256 ^ 4 := by rw [pow_256_4]; exact hk
      have ho8 : e.block_offset < 256 ^ 8 := by rw [pow_256_8]; exact ho
      have hs8 : e.block_size < 256 ^ 8 := by rw [pow_256_8]; exact hs
      have hrest : ∀ x ∈ es, x.last_key.length < 2 ^ 32 ∧ x.block_offset < 2 ^ 64 ∧ x.block_size < 2 ^ 64 :=
        fun x hx => hb x (List.mem_cons_of_mem e hx)
      simp only [List.length_cons, List.map_cons, List.flatten_cons, IndexEntry.to_bytes,
        List.append_assoc]
      simp only [parseIndexLoop, le_length_natToLe_append, if_true, take_natToLe_append,
        drop_natToLe_append, leToNat_natToLe_of_lt hk4, List.take_left, List.drop_left,
        le_length_bytes_append, le_refl, leToNat_natToLe_of_lt ho8, leToNat_natToLe_of_lt hs8,
        ih rest hrest]
      rfl

/-- Running `parse_index` on a serialized index followed by arbitrary trailing
bytes: the declared entries are decoded and the trailing bytes ignored. -/
theorem parse_index_ser (idx : List IndexEntry) (junk : Bytes)
    (hb : ∀ e ∈ idx, e.last_key.length < 2 ^ 32 ∧ e.block_offset < 2 ^ 64 ∧ e.block_size < 2 ^ 64)
    (hn : idx.length < 2 ^ 32) :
    SstReader.parse_index (serIndexBlock idx ++ junk) = .ok (idx.map toInfo) := by
  have hn4 : idx.length < 256 ^ 4 := by rw [pow_256_4]; exact hn
  simp only [SstReader.parse_index, serIndexBlock, List.append_assoc,
    le_length_natToLe_append, if_true, take_natToLe_append, drop_natToLe_append,
    leToNat_natToLe_of_lt hn4]
  exact parseIndexLoop_ser idx junk hb

theorem searchLoop_ser (es : List KV) : ∀ (rest : Bytes) (k : Bytes),
    (∀ p ∈ es, p.1.length < 2 ^ 32 ∧ p.2.length < 2 ^ 32) →
    searchLoop es.length ((es.map serKV).flatten ++ rest) k =
      .ok ((es.find? (fun p => p.1 == k)).map (fun p => p.2)) := by
  induction es with
  | nil => intro rest k hb; rfl
  | cons p es ih =>
      intro rest k hb
      obtain ⟨hk, hv⟩ := hb p (List.mem_cons_self p es)
      have hk4 : p.1.length < 256 ^ 4 := by rw [pow_256_4]; exact hk
      have hv4 : p.2.length < 256 ^ 4 := by rw [pow_256_4]; exact hv
      have hrest : ∀ q ∈ es, q.1.length < 2 ^ 32 ∧ q.2.length < 2 ^ 32 :=
        fun q hq => hb q (List.mem_cons_of_mem p hq)
      simp only [List.length_cons, List.map_cons, List.flatten_cons, serKV,
        List.append_assoc]
      simp only [searchLoop, le_length_natToLe_append, if_true, take_natToLe_append,
        drop_natToLe_append, leToNat_natToLe_of_lt hk4, leToNat_natToLe_of_lt hv4,
        List.take_left, List.drop_left, le_length_bytes_append, le_refl]
      by_cases hpk : p.1 = k
      · simp [hpk, List.find?_cons, beq_self_eq_true]
      · have hbeq : (p.1 == k) = false := by simpa using hpk
        simp only [if_neg hpk, ih rest k hrest, List.find?_cons, hbeq]

/-- Running `search_in_block` on the exact serialization of a block returns the
value of the first entry whose key matches, or `none`. -/
theorem search_in_block_ser (es : List KV) (k : Bytes)
    (hb : ∀ p ∈ es, p.1.length < 2 ^ 32 ∧ p.2.length < 2 ^ 32)
    (hn : es.length < 2 ^ 32) :
    SstReader.search_in_block (serBlock es) k =
      .ok ((es.find? (fun p => p.1 == k)).map (fun p => p.2)) := by
  have hn4 : es.length < 256 ^ 4 := by rw [pow_256_4]; exact hn
  have h := searchLoop_ser es [] k hb
  rw [List.append_nil] at h
  simp only [SstReader.search_in_block, serBlock, le_length_natToLe_append, if_true,
    take_natToLe_append, drop_natToLe_append, leToNat_natToLe_of_lt hn4]
  exact h

/-! ### Writer-state algebra -/

theorem charge_append (a b : List KV) : charge (a ++ b) = charge a + charge b := by
  induction a with
  | nil => simp [charge]
  | cons p t ih => simp [charge, List.foldr_cons] at ih ⊢; omega

theorem charge_single (p : KV) : charge [p] = 8 + p.1.length + p.2.length := by
  simp [charge]

theorem length_le_charge (es : List KV) : 8 * es.length ≤ charge es := by
  induction es with
  | nil => simp [charge]
  | cons p t ih => simp [charge, List.foldr_cons] at ih ⊢; omega

theorem blocksBytes_append (a b : List (List KV)) :
    blocksBytes (a ++ b) = blocksBytes a ++ blocksBytes b := by
  simp [blocksBytes]

theorem blocksBytes_single (es : List KV) : blocksBytes [es] = serBlock es := by
  simp [blocksBytes]

theorem mkIndex_append (a b : List (List KV)) (off : Nat) :
    mkIndex (a ++ b) off = mkIndex a off ++ mkIndex b (off + (blocksBytes a).length) := by
  induction a generalizing off with
  | nil => simp [mkIndex, blocksBytes]
  | cons es t ih =>
      simp only [List.cons_append, mkIndex, List.append_eq, ih, blocksBytes, List.map_cons,
        List.flatten_cons, List.length_append, Nat.add_assoc]

theorem lastKeyD_concat (es : List KV) (p : KV) : lastKeyD (es ++ [p]) = p.1 := by
  simp [lastKeyD, List.getLast?_concat]

theorem to_bytes_eq_serBlock (b : DataBlock) : b.to_bytes = serBlock b.entries := rfl

/-- Unfolding of `flush_block` on a non-empty current block. -/
theorem flush_block_eq {w : SstWriter} (hne : w.current_block.entries ≠ []) :
    w.flush_block =
      { filedata := w.filedata ++ w.current_block.to_bytes
        current_block := DataBlock.new
        index := w.index ++ [{ last_key := lastKeyD w.current_block.entries,
                               block_offset := w.offset,
                               block_size := w.current_block.to_bytes.length }]
        offset := w.offset + w.current_block.to_bytes.length
        block_size_threshold := w.block_size_threshold } := by
  have hlast : w.current_block.last_key = some (lastKeyD w.current_block.entries) := by
    rw [DataBlock.last_key, List.getLast?_eq_getLast _ hne]
    simp [lastKeyD, List.getLast?_eq_getLast _ hne]
  rw [SstWriter.flush_block, if_neg (by simpa [List.isEmpty_iff] using hne), hlast]

/-- Unfolding of `flush_block` on an empty current block: a no-op. -/
theorem flush_block_empty {w : SstWriter} (he : w.current_block.entries = []) :
    w.flush_block = w := by
  rw [SstWriter.flush_block, if_pos (by simpa [List.isEmpty_iff] using he)]

/-! ### The writer invariant is established by `new` and preserved by `add` -/

theorem winv_new : WInv SstWriter.new [] := by
  constructor <;> simp [SstWriter.new, DataBlock.new, charge, blocksBytes, mkIndex]

/-- A flush on a non-empty current block extends the flushed-block list and
re-establishes the invariant (the size estimate of the current block is
irrelevant to the flush itself). -/
theorem winv_flush {w : SstWriter} {bs : List (List KV)}
    (thresh : w.block_size_threshold = 4096)
    (data_eq : w.filedata = blocksBytes bs)
    (idx_eq : w.index = mkIndex bs 0)
    (off_eq : w.offset = w.filedata.length)
    (blocks_ne : ∀ b ∈ bs, b ≠ [])
    (blocks_len : ∀ b ∈ bs, b.length ≤ 512)
    (hne : w.current_block.entries ≠ [])
    (hlen : w.current_block.entries.length ≤ 512) :
    WInv w.flush_block (bs ++ [w.current_block.entries]) := by
  rw [flush_block_eq hne]
  constructor
  · exact thresh
  · simp [DataBlock.new, charge]
  · simp [DataBlock.new]
  · simp [blocksBytes_append, blocksBytes_single, data_eq, to_bytes_eq_serBlock]
  · simp only [mkIndex_append, mkIndex, idx_eq, off_eq, data_eq, to_bytes_eq_serBlock,
      Nat.zero_add, List.append_nil]
  · simp [off_eq, to_bytes_eq_serBlock]
  · intro b hb
    rcases List.mem_append.1 hb with h | h
    · exact blocks_ne b h
    · rw [List.mem_singleton.1 h]; exact hne
  · intro b hb
    rcases List.mem_append.1 hb with h | h
    · exact blocks_len b h
    · rw [List.mem_singleton.1 h]; exact hlen

/-- One `add` step preserves the invariant: either the pair joins the
current block, or the grown block is flushed as a new element of `bs`. -/
theorem winv_add {w : SstWriter} {bs : List (List KV)} (h : WInv w bs) (k v : Bytes) :
    ∃ bs2, WInv (w.add k v) bs2 ∧
      bs2.flatten ++ (w.add k v).current_block.entries =
        bs.flatten ++ w.current_block.entries ++ [(k, v)] := by
  have hcharge : (w.current_block.add k v).size =
      charge (w.current_block.entries ++ [(k, v)]) := by
    rw [DataBlock.add, charge_append, charge_single, h.size_eq]
  by_cases hfl : (w.current_block.add k v).size ≥ w.block_size_threshold
  · refine ⟨bs ++ [w.current_block.entries ++ [(k, v)]], ?_, ?_⟩
    · have hlen : (w.current_block.entries ++ [(k, v)]).length ≤ 512 := by
        have h8 := length_le_charge w.current_block.entries
        have hlt := h.size_lt
        rw [h.size_eq] at hlt
        simp only [List.length_append, List.length_cons, List.length_nil]
        omega
      have hne : w.current_block.entries ++ [(k, v)] ≠ [] := by
        simp
      have hstep := winv_flush (w := { w with current_block := w.current_block.add k v })
        h.thresh h.data_eq h.idx_eq h.off_eq h.blocks_ne h.blocks_len
        (by simp only [DataBlock.add]; exact hne) (by simp only [DataBlock.add]; exact hlen)
      rw [SstWriter.add, if_pos hfl] at *
      simpa [DataBlock.add] using hstep
    · rw [SstWriter.add, if_pos hfl, flush_block_eq (by simp [DataBlock.add])]
      simp [DataBlock.add, DataBlock.new]
  · refine ⟨bs, ?_, ?_⟩
    · rw [SstWriter.add, if_neg hfl]
      exact { thresh := h.thresh
              size_eq := hcharge
              size_lt := by
                have ht := h.thresh
                show (w.current_block.add k v).size < 4096
                omega
              data_eq := h.data_eq
              idx_eq := h.idx_eq
              off_eq := h.off_eq
              blocks_ne := h.blocks_ne
              blocks_len := h.blocks_len }
    · rw [SstWriter.add, if_neg hfl]
      simp [DataBlock.add]

/-- The invariant after feeding a whole list of pairs. -/
theorem winv_writeAll (ps : List KV) : ∀ (w : SstWriter) (bs : List (List KV)),
    WInv w bs →
    ∃ bs2, WInv (writeAll w ps) bs2 ∧
      bs2.flatten ++ (writeAll w ps).current_block.entries =
        bs.flatten ++ w.current_block.entries ++ ps := by
  induction ps with
  | nil => intro w bs h; exact ⟨bs, h, by simp [writeAll]⟩
  | cons p ps ih =>
      intro w bs h
      obtain ⟨bs1, h1, e1⟩ := winv_add h p.1 p.2
      obtain ⟨bs2, h2, e2⟩ := ih (w.add p.1 p.2) bs1 h1
      refine ⟨bs2, ?_, ?_⟩
      · simpa [writeAll] using h2
      · have : (writeAll (w.add p.1 p.2) ps) = writeAll w (p :: ps) := by
          simp [writeAll]
        rw [← this, e2, e1]
        simp

/-! ### Sorted-block facts -/

theorem blocksBytes_cons (b : List KV) (rest : List (List KV)) :
    blocksBytes (b :: rest) = serBlock b ++ blocksBytes rest := by
  simp [blocksBytes]

theorem lastKeyD_eq_getLast {es : List KV} (h : es ≠ []) :
    lastKeyD es = (es.getLast h).1 := by
  simp [lastKeyD, List.getLast?_eq_getLast _ h]

/-- In a block whose keys are pairwise `lexLe`-sorted, every key is
bounded by the last key of the block. -/
theorem mem_lexLe_lastKeyD {es : List KV}
    (hs : es.Pairwise (fun p q => lexLe p.1 q.1 = true)) {p : KV} (hp : p ∈ es) :
    lexLe p.1 (lastKeyD es) = true := by
  induction es with
  | nil => cases hp
  | cons q t ih =>
      by_cases ht : t = []
      · subst ht
        simp only [List.mem_singleton] at hp
        subst hp
        have hone : lastKeyD [p] = p.1 := by simp [lastKeyD]
        rw [hone]
        exact lexLe_refl p.1
      · have htail : lastKeyD (q :: t) = lastKeyD t := by
          rw [lastKeyD_eq_getLast (List.cons_ne_nil q t), lastKeyD_eq_getLast ht,
            List.getLast_cons ht]
        rw [htail]
        rcases List.mem_cons.1 hp with hq | hpt
        · subst hq
          have hlast := List.getLast_mem ht
          have := (List.pairwise_cons.1 hs).1 _ hlast
          rwa [lastKeyD_eq_getLast ht]
        · exact ih (List.pairwise_cons.1 hs).2 hpt

/-- Central reader lemma: a `get` against a file consisting of a prefix
`pre`, the serialized blocks `bs` and a post, with the in-memory index
describing exactly those blocks, returns the value of the first pair of
`bs.flatten` whose key equals `k` (or `none`). -/
theorem get_blocks (bs : List (List KV)) : ∀ (pre post : Bytes) (k : Bytes),
    (∀ b ∈ bs, b ≠ []) →
    bs.flatten.Pairwise (fun p q => lexLe p.1 q.1 = true) →
    (∀ p ∈ bs.flatten, p.1.length < 2 ^ 32 ∧ p.2.length < 2 ^ 32) →
    (∀ b ∈ bs, b.length < 2 ^ 32) →
    SstReader.get { file := pre ++ blocksBytes bs ++ post,
                    index := (mkIndex bs pre.length).map toInfo } k =
      .ok ((bs.flatten.find? (fun p => p.1 == k)).map (fun p => p.2)) := by
  induction bs with
  | nil => intro pre post k hne hsort hkv hblen; rfl
  | cons b rest ih =>
      intro pre post k hne hsort hkv hblen
      have hbne : b ≠ [] := hne b (List.mem_cons_self b rest)
      have hsort_b : b.Pairwise (fun p q => lexLe p.1 q.1 = true) := by
        rw [List.flatten_cons, List.pairwise_append] at hsort
        exact hsort.1
      have hsort_rest : rest.flatten.Pairwise (fun p q => lexLe p.1 q.1 = true) := by
        rw [List.flatten_cons, List.pairwise_append] at hsort
        exact hsort.2.1
      have hcross : ∀ p ∈ b, ∀ q ∈ rest.flatten, lexLe p.1 q.1 = true := by
        rw [List.flatten_cons, List.pairwise_append] at hsort
        exact hsort.2.2
      have hkv_b : ∀ p ∈ b, p.1.length < 2 ^ 32 ∧ p.2.length < 2 ^ 32 :=
        fun p hp => hkv p (by rw [List.flatten_cons]; exact List.mem_append_left _ hp)
      have hkv_rest : ∀ p ∈ rest.flatten, p.1.length < 2 ^ 32 ∧ p.2.length < 2 ^ 32 :=
        fun p hp => hkv p (by rw [List.flatten_cons]; exact List.mem_append_right _ hp)
      have hfile : pre ++ blocksBytes (b :: rest) ++ post =
          pre ++ (serBlock b ++ (blocksBytes rest ++ post)) := by
        rw [blocksBytes_cons]
        simp [List.append_assoc]
      by_cases htest : lexGe (lastKeyD b) k = true
      · -- the head block is the candidate
        have hfind : ((mkIndex (b :: rest) pre.length).map toInfo).find?
            (fun e => lexGe e.last_key k) =
            some (toInfo { last_key := lastKeyD b, block_offset := pre.length,
                           block_size := (serBlock b).length }) := by
          simp [mkIndex, List.find?_cons, toInfo, htest]
        have hlen_ok : ¬ ((pre ++ blocksBytes (b :: rest) ++ post).length -
            pre.length < (serBlock b).length) := by
          rw [hfile]
          simp only [List.length_append]
          omega
        have hseg : ((pre ++ blocksBytes (b :: rest) ++ post).drop pre.length).take
            (serBlock b).length = serBlock b := by
          rw [hfile, List.drop_left]
          exact List.take_left (serBlock b) (blocksBytes rest ++ post)
        simp only [SstReader.get, hfind, toInfo]
        rw [if_neg hlen_ok, hseg,
          search_in_block_ser b k hkv_b (hblen b (List.mem_cons_self b rest))]
        -- relate the head-block scan to the scan of all pairs
        rw [List.flatten_cons, List.find?_append]
        cases hfb : b.find? (fun p => p.1 == k) with
        | some x => simp
        | none =>
            have hnone : rest.flatten.find? (fun p => p.1 == k) = none := by
              rw [List.find?_eq_none]
              intro q hq hqk
              have hqk2 : q.1 = k := by simpa using hqk
              have hlastmem : b.getLast hbne ∈ b := List.getLast_mem hbne
              have hlast_le : lexLe (b.getLast hbne).1 q.1 := hcross _ hlastmem _ hq
              have hk_le : lexLe k (lastKeyD b) = true := lexLe_of_lexGe htest
              rw [lastKeyD_eq_getLast hbne] at hk_le
              rw [hqk2] at hlast_le
              have heq : (b.getLast hbne).1 = k :=
                lexLe_antisymm hlast_le hk_le
              have := (List.find?_eq_none.1 hfb) _ hlastmem
              rw [heq] at this
              simp at this
            rw [hnone]
            simp
      · -- the last key of the head block is below `k`: skip it
        have hkb : ∀ p ∈ b, (p.1 == k) = false := by
          intro p hp
          have hple : lexLe p.1 (lastKeyD b) = true := mem_lexLe_lastKeyD hsort_b hp
          cases hbeq : (p.1 == k) with
          | false => rfl
          | true =>
              have hpk : p.1 = k := by simpa using hbeq
              rw [hpk] at hple
              exact absurd (lexGe_of_lexLe hple) htest
        have htestf : lexGe (lastKeyD b) k = false := by
          cases hx : lexGe (lastKeyD b) k with
          | true => exact absurd hx htest
          | false => rfl
        have hfind : ((mkIndex (b :: rest) pre.length).map toInfo).find?
            (fun e => lexGe e.last_key k) =
            ((mkIndex rest (pre.length + (serBlock b).length)).map toInfo).find?
              (fun e => lexGe e.last_key k) := by
          simp only [mkIndex, List.map_cons, List.find?_cons, toInfo, htestf]
        have harr : pre ++ blocksBytes (b :: rest) ++ post =
            (pre ++ serBlock b) ++ blocksBytes rest ++ post := by
          rw [blocksBytes_cons]
          simp [List.append_assoc]
        have hstep : SstReader.get ⟨pre ++ blocksBytes (b :: rest) ++ post,
              (mkIndex (b :: rest) pre.length).map toInfo⟩ k =
            SstReader.get ⟨(pre ++ serBlock b) ++ blocksBytes rest ++ post,
              (mkIndex rest ((pre ++ serBlock b).length)).map toInfo⟩ k := by
          simp only [SstReader.get, hfind, harr, List.length_append]
        rw [hstep, ih (pre ++ serBlock b) post k
          (fun x hx => hne x (List.mem_cons_of_mem b hx)) hsort_rest hkv_rest
          (fun x hx => hblen x (List.mem_cons_of_mem b hx))]
        rw [List.flatten_cons, List.find?_append]
        have hfb : b.find? (fun p => p.1 == k) = none := List.find?_eq_none.2 (by
          intro x hx
          simp [hkb x hx])
        rw [hfb]
        simp

/-! ### From `finish` to the on-disk layout -/

theorem length_le_flatten_length {bs : List (List KV)} (h : ∀ b ∈ bs, b ≠ []) :
    bs.length ≤ bs.flatten.length := by
  induction bs with
  | nil => simp
  | cons b rest ih =>
      have hb := h b (List.mem_cons_self b rest)
      have hlen : 1 ≤ b.length := by
        cases b with
        | nil => exact absurd rfl hb
        | cons x t => simp
      have := ih (fun x hx => h x (List.mem_cons_of_mem b hx))
      simp only [List.length_cons, List.flatten_cons, List.length_append]
      omega

/-- The bytes `finish` produces, described through the final block list
`bs2` (the blocks flushed during `add` plus the final partial block). -/
theorem finish_eq {w : SstWriter} {bs : List (List KV)} (h : WInv w bs) :
    ∃ bs2, bs2.flatten = bs.flatten ++ w.current_block.entries ∧
      (∀ b ∈ bs2, b ≠ []) ∧ (∀ b ∈ bs2, b.length ≤ 512) ∧
      bs2.length ≤ bs.length + 1 ∧
      w.finish = blocksBytes bs2 ++ (serIndexBlock (mkIndex bs2 0) ++
        (natToLe 8 (blocksBytes bs2).length ++
         (natToLe 8 (serIndexBlock (mkIndex bs2 0)).length ++ natToLe 8 MAGIC))) := by
  by_cases hcur : w.current_block.entries = []
  · refine ⟨bs, by simp [hcur], h.blocks_ne, h.blocks_len, by omega, ?_⟩
    rw [SstWriter.finish, flush_block_empty hcur, h.data_eq, h.idx_eq, h.off_eq, h.data_eq]
    simp [List.append_assoc]
  · have hlen : w.current_block.entries.length ≤ 512 := by
      have h8 := length_le_charge w.current_block.entries
      have hlt := h.size_lt
      rw [h.size_eq] at hlt
      omega
    have hflush := winv_flush h.thresh h.data_eq h.idx_eq h.off_eq
      h.blocks_ne h.blocks_len hcur hlen
    refine ⟨bs ++ [w.current_block.entries], by simp, hflush.blocks_ne,
      hflush.blocks_len, by simp, ?_⟩
    rw [SstWriter.finish]
    rw [hflush.data_eq, hflush.idx_eq, hflush.off_eq, hflush.data_eq]
    simp [List.append_assoc]

/-- Every entry of `mkIndex bs off` describes a block of `bs` and lies,
as a byte range, inside `[off, off + |blocksBytes bs|)`. -/
theorem mkIndex_mem (bs : List (List KV)) : ∀ (off : Nat) (e : IndexEntry),
    e ∈ mkIndex bs off →
    ∃ b ∈ bs, e.last_key = lastKeyD b ∧ e.block_size = (serBlock b).length ∧
      off ≤ e.block_offset ∧
      e.block_offset + e.block_size ≤ off + (blocksBytes bs).length := by
  induction bs with
  | nil => intro off e he; cases he
  | cons b rest ih =>
      intro off e he
      rw [mkIndex] at he
      rcases List.mem_cons.1 he with he1 | he2
      · subst he1
        exact ⟨b, List.mem_cons_self b rest, rfl, rfl, Nat.le_refl off, by
          simp [blocksBytes_cons]⟩
      · obtain ⟨b2, hb2, hlk, hsz, hoff, hrange⟩ := ih (off + (serBlock b).length) e he2
        refine ⟨b2, List.mem_cons_of_mem b hb2, hlk, hsz, by omega, ?_⟩
        rw [blocksBytes_cons] at *
        simp only [List.length_append] at *
        omega

/-- The last key of a non-empty block is the key of one of its pairs. -/
theorem lastKeyD_mem {es : List KV} (h : es ≠ []) : ∃ p ∈ es, lastKeyD es = p.1 :=
  ⟨es.getLast h, List.getLast_mem h, lastKeyD_eq_getLast h⟩

theorem mkIndex_length (bs : List (List KV)) : ∀ off, (mkIndex bs off).length = bs.length := by
  induction bs with
  | nil => intro off; rfl
  | cons b rest ih => intro off; simp [mkIndex, ih]

/-- Generic layout lemma for `open`: a file made of a data section `D`, an
index section `I` whose parse succeeds, and a well-formed footer opens
successfully and returns the parsed index. -/
theorem open_layout (D I : Bytes) (infos : List IndexEntryInfo)
    (hD : D.length < 2 ^ 64) (hI : I.length < 2 ^ 64)
    (hparse : SstReader.parse_index I = .ok infos) :
    SstReader.open (D ++ (I ++ (natToLe 8 D.length ++
        (natToLe 8 I.length ++ natToLe 8 MAGIC)))) =
      .ok ⟨D ++ (I ++ (natToLe 8 D.length ++ (natToLe 8 I.length ++ natToLe 8 MAGIC))),
        infos⟩ := by
  have hD8 : D.length < 256 ^ 8 := by rw [pow_256_8]; exact hD
  have hI8 : I.length < 256 ^ 8 := by rw [pow_256_8]; exact hI
  set F : Bytes := natToLe 8 D.length ++ (natToLe 8 I.length ++ natToLe 8 MAGIC) with hFdef
  have hFlen : F.length = 24 := by
    simp [hFdef, length_natToLe]
  rw [(List.append_assoc D I F).symm]
  have hlen : ((D ++ I) ++ F).length = D.length + I.length + 24 := by
    simp only [List.length_append, hFlen]
  have hdropF : ((D ++ I) ++ F).drop (((D ++ I) ++ F).length - 24) = F := by
    have h1 : ((D ++ I) ++ F).length - 24 = (D ++ I).length := by
      simp only [List.length_append, hFlen]
      omega
    rw [h1, List.drop_left]
  have hmagic : leToNat (F.drop 16) = MAGIC := by
    have h16 : F.drop 16 = natToLe 8 MAGIC := by
      rw [hFdef]
      rw [show (16 : Nat) = 8 + 8 from rfl, ← List.drop_drop]
      rw [drop_natToLe_append, drop_natToLe_append]
    rw [h16, leToNat_natToLe_of_lt (by rw [pow_256_8]; norm_num [MAGIC])]
  have htake8 : leToNat (F.take 8) = D.length := by
    rw [hFdef, take_natToLe_append, leToNat_natToLe_of_lt hD8]
  have hdrop8 : leToNat ((F.drop 8).take 8) = I.length := by
    rw [hFdef, drop_natToLe_append, take_natToLe_append, leToNat_natToLe_of_lt hI8]
  have hbuf : (((D ++ I) ++ F).drop D.length).take I.length = I := by
    rw [List.append_assoc, List.drop_left, List.take_left]
  have hc1 : ¬ ((D ++ I) ++ F).length < 24 := by rw [hlen]; omega
  have hc3 : ¬ ((D ++ I) ++ F).length - D.length < I.length := by rw [hlen]; omega
  simp only [SstReader.open, hdropF, hmagic, htake8, hdrop8, hbuf, hparse, hc1, hc3,
    ne_eq, not_true_eq_false, not_false_eq_true, if_true, if_false, ite_true, ite_false]

/-- The serialized index written by `finish` parses back to the written
entries. -/
theorem parse_mkIndex (bs2 : List (List KV))
    (hne : ∀ b ∈ bs2, b ≠ [])
    (hkv : ∀ p ∈ bs2.flatten, p.1.length < 2 ^ 32 ∧ p.2.length < 2 ^ 32)
    (hcnt : bs2.length < 2 ^ 32)
    (hD : (blocksBytes bs2).length < 2 ^ 64) :
    SstReader.parse_index (serIndexBlock (mkIndex bs2 0)) =
      .ok ((mkIndex bs2 0).map toInfo) := by
  have hb : ∀ e ∈ mkIndex bs2 0, e.last_key.length < 2 ^ 32 ∧
      e.block_offset < 2 ^ 64 ∧ e.block_size < 2 ^ 64 := by
    intro e he
    obtain ⟨b, hb, hlk, hsz, hoff, hrange⟩ := mkIndex_mem bs2 0 e he
    obtain ⟨p, hp, hpk⟩ := lastKeyD_mem (hne b hb)
    have hpl : p.1.length < 2 ^ 32 :=
      (hkv p (List.mem_flatten.2 ⟨b, hb, hp⟩)).1
    refine ⟨by rw [hlk, hpk]; exact hpl, by omega, by omega⟩
  have hn : (mkIndex bs2 0).length < 2 ^ 32 := by
    rw [mkIndex_length]; exact hcnt
  have h := parse_index_ser (mkIndex bs2 0) [] hb hn
  rwa [List.append_nil] at h

/-- Opening the file that `finish` wrote yields a reader holding exactly
the written index. -/
theorem open_finish (bs2 : List (List KV))
    (hne : ∀ b ∈ bs2, b ≠ [])
    (hkv : ∀ p ∈ bs2.flatten, p.1.length < 2 ^ 32 ∧ p.2.length < 2 ^ 32)
    (hcnt : bs2.length < 2 ^ 32)
    (hD : (blocksBytes bs2).length < 2 ^ 64)
    (hI : (serIndexBlock (mkIndex bs2 0)).length < 2 ^ 64) :
    SstReader.open (blocksBytes bs2 ++ (serIndexBlock (mkIndex bs2 0) ++
        (natToLe 8 (blocksBytes bs2).length ++
         (natToLe 8 (serIndexBlock (mkIndex bs2 0)).length ++ natToLe 8 MAGIC)))) =
      .ok ⟨blocksBytes bs2 ++ (serIndexBlock (mkIndex bs2 0) ++
        (natToLe 8 (blocksBytes bs2).length ++
         (natToLe 8 (serIndexBlock (mkIndex bs2 0)).length ++ natToLe 8 MAGIC))),
        (mkIndex bs2 0).map toInfo⟩ :=
  open_layout (blocksBytes bs2) (serIndexBlock (mkIndex bs2 0))
    ((mkIndex bs2 0).map toInfo) hD hI (parse_mkIndex bs2 hne hkv hcnt hD)

/-! ### The end-to-end round trip -/

/-- Master round-trip lemma: writing a `lexLe`-sorted list of pairs (keys
and values shorter than `2^32`, fewer than `2^32` pairs, file below
`2^64` bytes) and opening the result yields a reader on which `get k`
returns the value of the first pair whose key is `k`, or `none`. -/
theorem sst_roundtrip (ps : List KV)
    (hsort : ps.Pairwise (fun p q => lexLe p.1 q.1 = true))
    (hkv : ∀ p ∈ ps, p.1.length < 2 ^ 32 ∧ p.2.length < 2 ^ 32)
    (hcnt : ps.length < 2 ^ 32)
    (hfile : ((writeAll SstWriter.new ps).finish).length < 2 ^ 64) :
    ∃ r : SstReader,
      SstReader.open ((writeAll SstWriter.new ps).finish) = .ok r ∧
      ∀ k, r.get k = .ok ((ps.find? (fun p => p.1 == k)).map (fun p => p.2)) := by
  obtain ⟨bs, hinv, hflat⟩ := winv_writeAll ps SstWriter.new [] winv_new
  obtain ⟨bs2, hflat2, hne2, hlen2, hcount2, hfin⟩ := finish_eq hinv
  have hfl : bs2.flatten = ps := by
    rw [hflat2]
    simpa [SstWriter.new, DataBlock.new] using hflat
  have hkv2 : ∀ p ∈ bs2.flatten, p.1.length < 2 ^ 32 ∧ p.2.length < 2 ^ 32 := by
    rw [hfl]; exact hkv
  have hsort2 : bs2.flatten.Pairwise (fun p q => lexLe p.1 q.1 = true) := by
    rw [hfl]; exact hsort
  have hcnt2 : bs2.length < 2 ^ 32 := by
    have h1 := length_le_flatten_length hne2
    rw [hfl] at h1
    omega
  have hblen2 : ∀ b ∈ bs2, b.length < 2 ^ 32 := by
    intro b hb
    have := hlen2 b hb
    omega
  have hDI : (blocksBytes bs2).length < 2 ^ 64 ∧
      (serIndexBlock (mkIndex bs2 0)).length < 2 ^ 64 := by
    rw [hfin] at hfile
    simp only [List.length_append, length_natToLe] at hfile
    omega
  have hopen := open_finish bs2 hne2 hkv2 hcnt2 hDI.1 hDI.2
  refine ⟨⟨blocksBytes bs2 ++ (serIndexBlock (mkIndex bs2 0) ++
      (natToLe 8 (blocksBytes bs2).length ++
       (natToLe 8 (serIndexBlock (mkIndex bs2 0)).length ++ natToLe 8 MAGIC))),
      (mkIndex bs2 0).map toInfo⟩, by rw [hfin]; exact hopen, ?_⟩
  intro k
  have hget := get_blocks bs2 [] (serIndexBlock (mkIndex bs2 0) ++
      (natToLe 8 (blocksBytes bs2).length ++
       (natToLe 8 (serIndexBlock (mkIndex bs2 0)).length ++ natToLe 8 MAGIC))) k
    hne2 hsort2 hkv2 hblen2
  rw [hfl] at hget
  simpa using hget

/-! ### Lemmas about `find?`-based selection -/

theorem lexLt_asymm {a b : Bytes} (h : lexLt a b = true) : lexLt b a = false := by
  cases hx : lexLt b a with
  | false => rfl
  | true =>
      have := lexLt_trans h hx
      rw [lexLt_irrefl] at this
      cases this

theorem lexLe_of_lexLt {a b : Bytes} (h : lexLt a b = true) : lexLe a b = true := by
  simp [lexLe, lexLt_asymm h]

/-- With pairwise strictly increasing keys, `find?` locates exactly the
unique pair carrying the searched key. -/
theorem find?_of_pairwise_lt {ps : List KV}
    (h : ps.Pairwise (fun p q => lexLt p.1 q.1 = true)) {p : KV} (hp : p ∈ ps) :
    ps.find? (fun q => q.1 == p.1) = some p := by
  induction ps with
  | nil => cases hp
  | cons q t ih =>
      rcases List.mem_cons.1 hp with hq | hpt
      · subst hq
        simp [List.find?_cons]
      · have hqp : lexLt q.1 p.1 = true :=
          (List.pairwise_cons.1 h).1 p hpt
        have hne : (q.1 == p.1) = false := by
          cases hx : (q.1 == p.1) with
          | false => rfl
          | true =>
              have : q.1 = p.1 := by simpa using hx
              rw [this, lexLt_irrefl] at hqp
              cases hqp
        rw [List.find?_cons, hne]
        exact ih (List.pairwise_cons.1 h).2 hpt

theorem find?_none_of_not_mem {ps : List KV} {k : Bytes}
    (h : ∀ p ∈ ps, p.1 ≠ k) : ps.find? (fun q => q.1 == k) = none := by
  rw [List.find?_eq_none]
  intro p hp
  simp [h p hp]

/-- The result of `find?` characterised as the first index satisfying the predicate. -/
theorem find?_first_index {α : Type} (p : α → Bool) (l : List α) {a : α}
    (h : l.find? p = some a) :
    ∃ i, ∃ hi : i < l.length, l.get ⟨i, hi⟩ = a ∧ p a = true ∧
      ∀ j, ∀ hj : j < l.length, j < i → p (l.get ⟨j, hj⟩) = false := by
  induction l with
  | nil => cases h
  | cons x t ih =>
      cases hx : p x with
      | true =>
          rw [List.find?_cons, hx] at h
          injection h with h
          subst h
          exact ⟨0, by simp, rfl, hx, fun j hj hj0 => absurd hj0 (by omega)⟩
      | false =>
          rw [List.find?_cons, hx] at h
          obtain ⟨i, hi, hget, hpa, hall⟩ := ih h
          refine ⟨i + 1, by simpa using hi, by simpa using hget, hpa, ?_⟩
          intro j hj hji
          cases j with
          | zero => simpa using hx
          | succ j2 =>
              have hj2 : j2 < t.length := by simpa using hj
              have := hall j2 hj2 (by omega)
              simpa using this

theorem find?_some_sat {α : Type} {p : α → Bool} {l : List α} {a : α}
    (h : l.find? p = some a) : p a = true ∧ a ∈ l :=
  ⟨List.find?_some h, List.mem_of_find?_eq_some h⟩

/-! ### Claim theorems -/

/-- Claim C2 (code bug): on a truncated buffer the decoders of the reader do
NOT return a decode error to the caller: `parse_index` and
`search_in_block` panic (Rust slice bounds-check, modelled by `crash`)
on the buffer `[1,0,0,0]`, which declares one entry but provides no
entry bytes.  No code path of either function returns an error value. -/
theorem c2_truncated_input_crashes :
    SstReader.parse_index (natToLe 4 1) = .crash ∧
    SstReader.search_in_block (natToLe 4 1) [] = .crash := by
  constructor <;> decide

/-- Claim C3: `get` scans the in-memory index in stored order and selects
the first entry whose `last_key` is lexicographically `>= key`; if no
entry qualifies, every stored `last_key` is `< key` and `get` returns
`Ok(None)` whatever the file contents are (no block read can influence
the result). -/
theorem c3_candidate_selection (r : SstReader) (k : Bytes) :
    (r.index.find? (fun e => lexGe e.last_key k) = none →
      (∀ e ∈ r.index, lexLt e.last_key k = true) ∧
      (∀ file2 : Bytes, SstReader.get ⟨file2, r.index⟩ k = .ok none)) ∧
    (∀ e, r.index.find? (fun e2 => lexGe e2.last_key k) = some e →
      ∃ i, ∃ hi : i < r.index.length, r.index.get ⟨i, hi⟩ = e ∧
        lexGe e.last_key k = true ∧
        ∀ j, ∀ hj : j < r.index.length, j < i →
          lexGe (r.index.get ⟨j, hj⟩).last_key k = false) := by
  constructor
  · intro hnone
    constructor
    · intro e he
      have h := List.find?_eq_none.1 hnone e he
      simpa [lexGe] using h
    · intro file2
      simp only [SstReader.get, hnone]
  · intro e he
    exact find?_first_index _ _ he

/-- Witness for C3: on an empty index (the reader of an empty table) `get`
returns `Ok(None)` regardless of the file bytes. -/
theorem c3_candidate_selection_witness :
    SstReader.get ⟨[], []⟩ ([] : Bytes) = .ok none :=
  ((c3_candidate_selection ⟨[], []⟩ []).1 rfl).2 []

/-- Claim C4 counterexample: a file of 8 zero bytes has final 8 bytes
different from the magic constant, yet `open` fails with a generic I/O
error (the `seek(End(-24))` fails on a file shorter than 24 bytes), not
with the format-invalid error the claim requires. -/
theorem c4_short_file_counterexample :
    leToNat ((List.replicate 8 (0 : Byte)).drop
        ((List.replicate 8 (0 : Byte)).length - 8)) ≠ MAGIC ∧
    SstReader.open (List.replicate 8 (0 : Byte)) = .ioErr ∧
    OpenRes.ioErr ≠ OpenRes.invalidData := by
  refine ⟨by decide, by decide, by decide⟩

/-- Claim C4 (amended): for every file of at least 24 bytes whose final
8 bytes, read as a little-endian u64, differ from `0xDEADBEEFCAFEBABE`,
`open` fails with the distinct format-invalid error (`InvalidData`) and
never yields a reader.  (Files shorter than 24 bytes fail with a generic
I/O error from the footer seek instead.) -/
theorem c4_magic_rejection (file : Bytes) (hlen : 24 ≤ file.length)
    (hm : leToNat (file.drop (file.length - 8)) ≠ MAGIC) :
    SstReader.open file = .invalidData := by
  have hc1 : ¬ file.length < 24 := by omega
  have hdd : (file.drop (file.length - 24)).drop 16 = file.drop (file.length - 8) := by
    rw [List.drop_drop]
    congr 1
    omega
  simp only [SstReader.open, hc1, if_false, ite_false, hdd, ne_eq]
  rw [if_pos hm]

/-- Witness for C4 (amended): a 24-zero-byte file is rejected with the
format-invalid error. -/
theorem c4_magic_rejection_witness :
    24 ≤ (List.replicate 24 (0 : Byte)).length ∧
    leToNat ((List.replicate 24 (0 : Byte)).drop
        ((List.replicate 24 (0 : Byte)).length - 8)) ≠ MAGIC ∧
    SstReader.open (List.replicate 24 (0 : Byte)) = .invalidData :=
  ⟨by decide, by decide, c4_magic_rejection _ (by decide) (by decide)⟩

/-- Claim C5: for every sequence of adds, `finish` writes the
concatenation of the serialized data blocks (in flush order,
`blocksBytes bs2`), then the index block, then the 24-byte footer
`index_offset (u64 LE, = total data bytes) ++ index_size (u64 LE, = index
length) ++ magic`; the footer is exactly the final 24 bytes. -/
theorem c5_file_layout (ps : List KV) :
    ∃ bs2 : List (List KV),
      (writeAll SstWriter.new ps).finish =
        blocksBytes bs2 ++ (serIndexBlock (mkIndex bs2 0) ++
          (natToLe 8 (blocksBytes bs2).length ++
           (natToLe 8 (serIndexBlock (mkIndex bs2 0)).length ++ natToLe 8 MAGIC))) ∧
      24 ≤ ((writeAll SstWriter.new ps).finish).length ∧
      ((writeAll SstWriter.new ps).finish).drop
          (((writeAll SstWriter.new ps).finish).length - 24) =
        natToLe 8 (blocksBytes bs2).length ++
          (natToLe 8 (serIndexBlock (mkIndex bs2 0)).length ++ natToLe 8 MAGIC) := by
  obtain ⟨bs, hinv, hflat⟩ := winv_writeAll ps SstWriter.new [] winv_new
  obtain ⟨bs2, hflat2, hne2, hlen2, hcount2, hfin⟩ := finish_eq hinv
  set D := blocksBytes bs2 with hDdef
  set I := serIndexBlock (mkIndex bs2 0) with hIdef
  set F : Bytes := natToLe 8 D.length ++ (natToLe 8 I.length ++ natToLe 8 MAGIC) with hFdef
  have hFlen : F.length = 24 := by
    simp [hFdef, length_natToLe]
  refine ⟨bs2, hfin, ?_, ?_⟩
  · rw [hfin]
    simp only [List.length_append, hFlen]
    omega
  · rw [hfin, (List.append_assoc D I F).symm]
    have h1 : ((D ++ I) ++ F).length - 24 = (D ++ I).length := by
      simp only [List.length_append, hFlen]
      omega
    rw [h1, List.drop_left]

/-- Claim C6: each added pair charges exactly `8 + key.len + value.len`
to the size estimate; `add` flushes exactly when the accumulated estimate
reaches the threshold (4096 for writers built by `new`); a flush of a
non-empty block appends the block bytes at the current offset, records an
`IndexEntry` with that offset and the written size, advances the offset
by the written size, and installs a fresh empty block; and the
offset always equals the number of bytes written so far. -/
theorem c6_flush_accounting :
    (∀ (b : DataBlock) (k v : Bytes),
      (b.add k v).size = b.size + (8 + k.length + v.length) ∧
      (b.add k v).entries = b.entries ++ [(k, v)]) ∧
    (∀ (w : SstWriter) (k v : Bytes),
      w.add k v =
        if (w.current_block.add k v).size ≥ w.block_size_threshold
        then ({ w with current_block := w.current_block.add k v } : SstWriter).flush_block
        else { w with current_block := w.current_block.add k v }) ∧
    (∀ w : SstWriter, w.current_block.entries ≠ [] →
      w.flush_block =
        { filedata := w.filedata ++ w.current_block.to_bytes
          current_block := DataBlock.new
          index := w.index ++ [{ last_key := lastKeyD w.current_block.entries,
                                 block_offset := w.offset,
                                 block_size := w.current_block.to_bytes.length }]
          offset := w.offset + w.current_block.to_bytes.length
          block_size_threshold := w.block_size_threshold }) ∧
    (∀ ps : List KV, (writeAll SstWriter.new ps).block_size_threshold = 4096 ∧
      (writeAll SstWriter.new ps).offset = (writeAll SstWriter.new ps).filedata.length) := by
  refine ⟨fun b k v => ⟨rfl, rfl⟩, fun w k v => rfl, fun w h => flush_block_eq h, fun ps => ?_⟩
  obtain ⟨bs, hinv, hflat⟩ := winv_writeAll ps SstWriter.new [] winv_new
  exact ⟨hinv.thresh, hinv.off_eq⟩

/-- Witness for C6: a concrete flush of a one-pair block. -/
theorem c6_flush_accounting_witness :
    SstWriter.flush_block
        { filedata := [], current_block := { entries := [([1], [2])], size := 11 },
          index := [], offset := 0, block_size_threshold := 4096 } =
      { filedata := DataBlock.to_bytes { entries := [([1], [2])], size := 11 }
        current_block := DataBlock.new
        index := [{ last_key := lastKeyD [([1], [2])], block_offset := 0,
                    block_size := (DataBlock.to_bytes { entries := [([1], [2])], size := 11 }).length }]
        offset := 0 + (DataBlock.to_bytes { entries := [([1], [2])], size := 11 }).length
        block_size_threshold := 4096 } := by
  have h := c6_flush_accounting.2.2.1
    { filedata := [], current_block := { entries := [([1], [2])], size := 11 },
      index := [], offset := 0, block_size_threshold := 4096 } (by decide)
  simpa using h

/-- Claim C7: a flush of an empty current block is a no-op; finishing a
fresh writer produces exactly an empty index block plus a correct footer
(no data blocks); opening that file succeeds with an empty in-memory
index, and `get` returns `Ok(None)` for every key. -/
theorem c7_empty_table :
    (∀ w : SstWriter, w.current_block.entries = [] → w.flush_block = w) ∧
    SstWriter.new.finish =
      serIndexBlock [] ++ (natToLe 8 0 ++
        (natToLe 8 (serIndexBlock []).length ++ natToLe 8 MAGIC)) ∧
    SstReader.open SstWriter.new.finish = .ok ⟨SstWriter.new.finish, []⟩ ∧
    ∀ k : Bytes, SstReader.get ⟨SstWriter.new.finish, []⟩ k = .ok none := by
  refine ⟨fun w he => flush_block_empty he, by decide, by decide, fun k => rfl⟩

/-- Witness for C7: the no-op empty flush on the fresh writer. -/
theorem c7_empty_table_witness : SstWriter.new.flush_block = SstWriter.new :=
  c7_empty_table.1 SstWriter.new rfl

/-- With non-empty blocks and globally sorted pairs, the last keys of the blocks are pairwise non-decreasing. -/
theorem lastKeys_pairwise {bs : List (List KV)} (hne : ∀ b ∈ bs, b ≠ [])
    (hs : bs.flatten.Pairwise (fun p q => lexLe p.1 q.1 = true)) :
    bs.Pairwise (fun b1 b2 => lexLe (lastKeyD b1) (lastKeyD b2) = true) := by
  induction bs with
  | nil => exact List.Pairwise.nil
  | cons b rest ih =>
      rw [List.flatten_cons, List.pairwise_append] at hs
      refine List.pairwise_cons.2
        ⟨?_, ih (fun x hx => hne x (List.mem_cons_of_mem b hx)) hs.2.1⟩
      intro b2 hb2
      have hb2ne : b2 ≠ [] := hne b2 (List.mem_cons_of_mem b hb2)
      have hbne : b ≠ [] := hne b (List.mem_cons_self b rest)
      have h1 : b.getLast hbne ∈ b := List.getLast_mem hbne
      have h2 : b2.getLast hb2ne ∈ rest.flatten :=
        List.mem_flatten.2 ⟨b2, hb2, List.getLast_mem hb2ne⟩
      have h3 := hs.2.2 _ h1 _ h2
      rw [lastKeyD_eq_getLast hbne, lastKeyD_eq_getLast hb2ne]
      exact h3

theorem mkIndex_map_last_key (bs : List (List KV)) : ∀ off,
    (mkIndex bs off).map (fun e => e.last_key) = bs.map lastKeyD := by
  induction bs with
  | nil => intro off; rfl
  | cons b rest ih => intro off; simp [mkIndex, ih]

/-- Claim C8: for a non-decreasing key sequence, the index of the writer is
exactly `mkIndex bs 0` for the list `bs` of blocks actually flushed (a
partition of a prefix of the input); the `last_key` of each entry is the last
key appended to its block (`lastKeyD`), it upper-bounds every key stored
in that block, and across the index the `last_key` values are
non-decreasing. -/
theorem c8_index_last_key_invariant (ps : List KV)
    (hsort : ps.Pairwise (fun p q => lexLe p.1 q.1 = true)) :
    ∃ bs, (writeAll SstWriter.new ps).index = mkIndex bs 0 ∧
      bs.flatten ++ (writeAll SstWriter.new ps).current_block.entries = ps ∧
      (∀ e ∈ (writeAll SstWriter.new ps).index, ∃ b ∈ bs, b ≠ [] ∧
        e.last_key = lastKeyD b ∧ ∀ p ∈ b, lexLe p.1 e.last_key = true) ∧
      ((writeAll SstWriter.new ps).index.map (fun e => e.last_key)).Pairwise
        (fun a b => lexLe a b = true) := by
  obtain ⟨bs, hinv, hflat⟩ := winv_writeAll ps SstWriter.new [] winv_new
  have hflat2 : bs.flatten ++ (writeAll SstWriter.new ps).current_block.entries = ps := by
    simpa [SstWriter.new, DataBlock.new] using hflat
  have hsub : bs.flatten.Sublist ps := by
    rw [← hflat2]
    exact List.sublist_append_left _ _
  have hsflat : bs.flatten.Pairwise (fun p q => lexLe p.1 q.1 = true) :=
    hsort.sublist hsub
  refine ⟨bs, hinv.idx_eq, hflat2, ?_, ?_⟩
  · intro e he
    rw [hinv.idx_eq] at he
    obtain ⟨b, hb, hlk, hsz, hoff, hrange⟩ := mkIndex_mem bs 0 e he
    have hbne : b ≠ [] := hinv.blocks_ne b hb
    have hbsub : b.Sublist bs.flatten := List.sublist_flatten_of_mem hb
    have hbsort : b.Pairwise (fun p q => lexLe p.1 q.1 = true) :=
      hsflat.sublist hbsub
    refine ⟨b, hb, hbne, hlk, ?_⟩
    intro p hp
    rw [hlk]
    exact mem_lexLe_lastKeyD hbsort hp
  · rw [hinv.idx_eq, mkIndex_map_last_key]
    rw [List.pairwise_map]
    exact lastKeys_pairwise hinv.blocks_ne hsflat

/-- Witness for C8: a two-pair sorted input. -/
theorem c8_index_last_key_invariant_witness :
    ∃ bs, (writeAll SstWriter.new [([1], [10]), ([2], [20])]).index = mkIndex bs 0 ∧
      bs.flatten ++ (writeAll SstWriter.new [([1], [10]), ([2], [20])]).current_block.entries =
        [([1], [10]), ([2], [20])] ∧
      (∀ e ∈ (writeAll SstWriter.new [([1], [10]), ([2], [20])]).index, ∃ b ∈ bs, b ≠ [] ∧
        e.last_key = lastKeyD b ∧ ∀ p ∈ b, lexLe p.1 e.last_key = true) ∧
      ((writeAll SstWriter.new [([1], [10]), ([2], [20])]).index.map
        (fun e => e.last_key)).Pairwise (fun a b => lexLe a b = true) :=
  c8_index_last_key_invariant [([1], [10]), ([2], [20])] (by decide)

/-- Claim C10: `parse_index` reads exactly the declared entries from the
front of the buffer and silently ignores arbitrary trailing bytes, so it
is not injective on its input buffer; consequently a footer that
overstates `index_size` (here by `junk.length` bytes) still opens
successfully with the same in-memory index. -/
theorem c10_trailing_bytes_ignored (idx : List IndexEntry) (junk data : Bytes)
    (hb : ∀ e ∈ idx, e.last_key.length < 2 ^ 32 ∧
      e.block_offset < 2 ^ 64 ∧ e.block_size < 2 ^ 64)
    (hn : idx.length < 2 ^ 32)
    (hD : data.length < 2 ^ 64)
    (hIJ : (serIndexBlock idx ++ junk).length < 2 ^ 64) :
    SstReader.parse_index (serIndexBlock idx ++ junk) = .ok (idx.map toInfo) ∧
    SstReader.parse_index (serIndexBlock idx) = .ok (idx.map toInfo) ∧
    SstReader.open (data ++ ((serIndexBlock idx ++ junk) ++ (natToLe 8 data.length ++
        (natToLe 8 (serIndexBlock idx ++ junk).length ++ natToLe 8 MAGIC)))) =
      .ok ⟨data ++ ((serIndexBlock idx ++ junk) ++ (natToLe 8 data.length ++
        (natToLe 8 (serIndexBlock idx ++ junk).length ++ natToLe 8 MAGIC))),
        idx.map toInfo⟩ := by
  have h1 := parse_index_ser idx junk hb hn
  have h2 := parse_index_ser idx [] hb hn
  rw [List.append_nil] at h2
  exact ⟨h1, h2, open_layout data _ _ hD hIJ h1⟩

/-- Witness for C10: empty index with one junk byte is opened and the
junk silently ignored. -/
theorem c10_trailing_bytes_ignored_witness :
    SstReader.parse_index (serIndexBlock [] ++ [255]) = .ok [] ∧
    SstReader.parse_index (serIndexBlock []) = .ok [] ∧
    SstReader.open ([] ++ ((serIndexBlock [] ++ [255]) ++ (natToLe 8 (List.length ([] : Bytes)) ++
        (natToLe 8 (serIndexBlock [] ++ [255]).length ++ natToLe 8 MAGIC)))) =
      .ok ⟨[] ++ ((serIndexBlock [] ++ [255]) ++ (natToLe 8 (List.length ([] : Bytes)) ++
        (natToLe 8 (serIndexBlock [] ++ [255]).length ++ natToLe 8 MAGIC))), []⟩ :=
  c10_trailing_bytes_ignored [] [255] [] (by simp) (by decide) (by decide) (by decide)

/-- Claim C9 (amended): with duplicates of `k` added (in sorted order),
and provided every key and value is shorter than `2^32` bytes, fewer
than `2^32` pairs are written and the file stays below `2^64` bytes,
`get k` returns the value of the first matching pair reached by the
linear scan of the selected block — which is the earliest-added
duplicate: `find?` over the written sequence.  Without the value bound
the claim fails: the u32 `val_len` field of a `2^32`-byte first
duplicate wraps to `0` and `get` returns `Some []` instead of its
value. -/
theorem c9_duplicate_first_wins (ps : List KV) (k : Bytes)
    (hsort : ps.Pairwise (fun p q => lexLe p.1 q.1 = true))
    (hkv : ∀ p ∈ ps, p.1.length < 2 ^ 32 ∧ p.2.length < 2 ^ 32)
    (hcnt : ps.length < 2 ^ 32)
    (hfile : ((writeAll SstWriter.new ps).finish).length < 2 ^ 64)
    (hdup : 2 ≤ (ps.filter (fun p => p.1 == k)).length) :
    ∃ r p0, SstReader.open ((writeAll SstWriter.new ps).finish) = .ok r ∧
      ps.find? (fun q => q.1 == k) = some p0 ∧ p0.1 = k ∧
      r.get k = .ok (some p0.2) ∧
      ∃ i, ∃ hi : i < ps.length, ps.get ⟨i, hi⟩ = p0 ∧
        ∀ j, ∀ hj : j < ps.length, j < i → (ps.get ⟨j, hj⟩).1 ≠ k := by
  obtain ⟨r, hopen, hget⟩ := sst_roundtrip ps hsort hkv hcnt hfile
  have hex : ∃ p0, ps.find? (fun q => q.1 == k) = some p0 := by
    cases hf : ps.find? (fun q => q.1 == k) with
    | some p0 => exact ⟨p0, rfl⟩
    | none =>
        rw [List.find?_eq_none] at hf
        have hnil : ps.filter (fun p => p.1 == k) = [] := by
          rw [List.filter_eq_nil_iff]
          exact hf
        rw [hnil] at hdup
        simp at hdup
  obtain ⟨p0, hp0⟩ := hex
  have hsat := find?_some_sat hp0
  have hkey : p0.1 = k := by simpa using hsat.1
  obtain ⟨i, hi, hgeti, hpi, hfirst⟩ := find?_first_index _ _ hp0
  refine ⟨r, p0, hopen, hp0, hkey, ?_, i, hi, hgeti, ?_⟩
  · rw [hget k, hp0]
    rfl
  · intro j hj hji
    have h := hfirst j hj hji
    simpa using h

/-- Witness for C9: two pairs with the same key; `get` returns the value
of the first one. -/
theorem c9_duplicate_first_wins_witness :
    ∃ r p0,
      SstReader.open ((writeAll SstWriter.new [([1], [10]), ([1], [20])]).finish) = .ok r ∧
      ([([1], [10]), ([1], [20])] : List KV).find? (fun q => q.1 == [1]) = some p0 ∧
      p0.1 = [1] ∧ r.get [1] = .ok (some p0.2) ∧
      ∃ i, ∃ hi : i < ([([1], [10]), ([1], [20])] : List KV).length,
        ([([1], [10]), ([1], [20])] : List KV).get ⟨i, hi⟩ = p0 ∧
        ∀ j, ∀ hj : j < ([([1], [10]), ([1], [20])] : List KV).length, j < i →
          (([([1], [10]), ([1], [20])] : List KV).get ⟨j, hj⟩).1 ≠ [1] :=
  c9_duplicate_first_wins [([1], [10]), ([1], [20])] [1]
    (by decide) (by decide) (by decide) (by decide) (by decide)

/-- Claim C1 (amended): writing a strictly increasing key sequence and
reading it back returns every written value and `None` for unwritten
keys, provided each key and value is shorter than `2^32` bytes (the u32
length fields), fewer than `2^32` pairs are written (the u32 index count)
and the file stays below `2^64` bytes (the u64 offsets). -/
theorem c1_roundtrip_distinct (ps : List KV)
    (hsort : ps.Pairwise (fun p q => lexLt p.1 q.1 = true))
    (hkv : ∀ p ∈ ps, p.1.length < 2 ^ 32 ∧ p.2.length < 2 ^ 32)
    (hcnt : ps.length < 2 ^ 32)
    (hfile : ((writeAll SstWriter.new ps).finish).length < 2 ^ 64) :
    ∃ r, SstReader.open ((writeAll SstWriter.new ps).finish) = .ok r ∧
      (∀ p ∈ ps, r.get p.1 = .ok (some p.2)) ∧
      (∀ k : Bytes, (∀ p ∈ ps, p.1 ≠ k) → r.get k = .ok none) := by
  have hsle : ps.Pairwise (fun p q => lexLe p.1 q.1 = true) :=
    hsort.imp (fun h => lexLe_of_lexLt h)
  obtain ⟨r, hopen, hget⟩ := sst_roundtrip ps hsle hkv hcnt hfile
  refine ⟨r, hopen, ?_, ?_⟩
  · intro p hp
    rw [hget p.1, find?_of_pairwise_lt hsort hp]
    rfl
  · intro k hk
    rw [hget k, find?_none_of_not_mem hk]
    rfl

/-- Witness for C1 (amended): the two-pair table round-trips and a third
key is not found. -/
theorem c1_roundtrip_distinct_witness :
    ∃ r, SstReader.open ((writeAll SstWriter.new [([1], [10]), ([2], [20, 21])]).finish) =
        .ok r ∧
      (∀ p ∈ ([([1], [10]), ([2], [20, 21])] : List KV), r.get p.1 = .ok (some p.2)) ∧
      (∀ k : Bytes, (∀ p ∈ ([([1], [10]), ([2], [20, 21])] : List KV), p.1 ≠ k) →
        r.get k = .ok none) :=
  c1_roundtrip_distinct [([1], [10]), ([2], [20, 21])]
    (by decide) (by decide) (by decide) (by decide)

/-! ### The u32 truncation of oversized values -/

/-- Scanning a single-entry block whose value is arbitrarily large: the
stored `val_len` field is the u32-truncated length, so the returned value
is `val.take (val.length % 2^32)`. -/
theorem search_in_block_single (k val : Bytes) (hk : k.length < 2 ^ 32) :
    SstReader.search_in_block (serBlock [(k, val)]) k =
      .ok (some (val.take (val.length % 2 ^ 32))) := by
  have hk4 : k.length < 256 ^ 4 := by rw [pow_256_4]; exact hk
  have hone4 : (1 : Nat) < 256 ^ 4 := by norm_num
  have hB : serBlock [(k, val)] =
      natToLe 4 1 ++ (natToLe 4 k.length ++ (k ++ (natToLe 4 val.length ++ val))) := by
    simp [serBlock, serKV, List.append_assoc]
  rw [hB]
  simp only [SstReader.search_in_block, le_length_natToLe_append, if_true,
    take_natToLe_append, drop_natToLe_append, leToNat_natToLe_of_lt hone4]
  show searchLoop (0 + 1) _ _ = _
  simp only [searchLoop, le_length_natToLe_append, if_true, take_natToLe_append,
    drop_natToLe_append, leToNat_natToLe_of_lt hk4, List.take_left, List.drop_left,
    le_length_bytes_append, leToNat_natToLe, pow_256_4]
  rw [if_pos (Nat.mod_le val.length (2 ^ 32))]

/-- Writing a single pair whose size estimate reaches the flush threshold
and whose block still fits the u64 fields, then reading back its key,
returns the u32-truncated value `v.take (v.length % 2^32)`. -/
theorem single_big_pair_get (v : Bytes) (hbig : 4096 ≤ 9 + v.length)
    (hsmall : 13 + v.length < 2 ^ 64) :
    openThenGet ((writeAll SstWriter.new [([0], v)]).finish) [0] =
      some (.ok (some (v.take (v.length % 2 ^ 32)))) := by
  have hBlen : (serBlock [([0], v)]).length = 13 + v.length := by
    simp only [serBlock, serKV, List.map_cons, List.map_nil, List.flatten_cons,
      List.flatten_nil, List.append_nil, List.length_append, length_natToLe,
      List.length_cons, List.length_nil]
    omega
  -- step 1: the writer after the single add
  have h1 : writeAll SstWriter.new [([0], v)] = SstWriter.new.add [0] v := by
    simp only [writeAll, List.foldl_cons, List.foldl_nil]
  have hszc : ((⟨[], DataBlock.new.add [0] v, [], 0, 4096⟩ : SstWriter)).current_block.size ≥
      ((⟨[], DataBlock.new.add [0] v, [], 0, 4096⟩ : SstWriter)).block_size_threshold := by
    show (DataBlock.new.add [0] v).size ≥ 4096
    simp only [DataBlock.add, DataBlock.new, List.length_cons, List.length_nil]
    omega
  have h2 : SstWriter.new.add [0] v =
      ((⟨[], DataBlock.new.add [0] v, [], 0, 4096⟩ : SstWriter)).flush_block := by
    rw [SstWriter.add]
    exact if_pos hszc
  have hne1 : ((⟨[], DataBlock.new.add [0] v, [], 0, 4096⟩ : SstWriter)).current_block.entries ≠ [] := by
    simp [DataBlock.add, DataBlock.new]
  -- step 2: the file finish writes
  have h3 : (writeAll SstWriter.new [([0], v)]).finish =
      serBlock [([0], v)] ++ (serIndexBlock [⟨[0], 0, (serBlock [([0], v)]).length⟩] ++
        (natToLe 8 (serBlock [([0], v)]).length ++
          (natToLe 8 (serIndexBlock [⟨[0], 0, (serBlock [([0], v)]).length⟩]).length ++
            natToLe 8 MAGIC))) := by
    rw [h1, h2, flush_block_eq hne1, SstWriter.finish]
    rw [flush_block_empty rfl]
    simp only [to_bytes_eq_serBlock, DataBlock.add, DataBlock.new, List.nil_append,
      Nat.zero_add, lastKeyD, List.getLast?_cons, List.getLast?_nil, Option.getD_none,
      Option.map_some, Option.getD_some, List.append_assoc]
    simp
  have hIlen : (serIndexBlock [(⟨[0], 0, (serBlock [([0], v)]).length⟩ : IndexEntry)]).length
      = 25 := by
    simp only [serIndexBlock, IndexEntry.to_bytes, List.map_cons, List.map_nil,
      List.flatten_cons, List.flatten_nil, List.append_nil, List.length_append,
      length_natToLe, List.length_cons, List.length_nil]
  have hparse : SstReader.parse_index
      (serIndexBlock [(⟨[0], 0, (serBlock [([0], v)]).length⟩ : IndexEntry)]) =
      .ok [toInfo ⟨[0], 0, (serBlock [([0], v)]).length⟩] := by
    have hb : ∀ e ∈ [(⟨[0], 0, (serBlock [([0], v)]).length⟩ : IndexEntry)],
        e.last_key.length < 2 ^ 32 ∧ e.block_offset < 2 ^ 64 ∧ e.block_size < 2 ^ 64 := by
      intro e he
      rw [List.mem_singleton.1 he]
      refine ⟨by norm_num, by norm_num, ?_⟩
      show (serBlock [([0], v)]).length < 2 ^ 64
      rw [hBlen]
      exact hsmall
    have h := parse_index_ser [⟨[0], 0, (serBlock [([0], v)]).length⟩] [] hb (by norm_num)
    rwa [List.append_nil] at h
  have hopen := open_layout (serBlock [([0], v)])
    (serIndexBlock [⟨[0], 0, (serBlock [([0], v)]).length⟩])
    [toInfo ⟨[0], 0, (serBlock [([0], v)]).length⟩]
    (by rw [hBlen]; omega) (by rw [hIlen]; norm_num) hparse
  -- step 3: the lookup
  have hfind : ([toInfo ⟨[0], 0, (serBlock [([0], v)]).length⟩] :
      List IndexEntryInfo).find? (fun e => lexGe e.last_key [0]) =
      some (toInfo ⟨[0], 0, (serBlock [([0], v)]).length⟩) := by
    have hge : lexGe (([0] : Bytes)) [0] = true := by decide
    simp only [List.find?_cons, toInfo, hge]
  have hget : SstReader.get ⟨serBlock [([0], v)] ++
      (serIndexBlock [⟨[0], 0, (serBlock [([0], v)]).length⟩] ++
        (natToLe 8 (serBlock [([0], v)]).length ++
          (natToLe 8 (serIndexBlock [⟨[0], 0, (serBlock [([0], v)]).length⟩]).length ++
            natToLe 8 MAGIC))),
      [toInfo ⟨[0], 0, (serBlock [([0], v)]).length⟩]⟩ [0] =
      .ok (some (v.take (v.length % 2 ^ 32))) := by
    simp only [SstReader.get, hfind]
    simp only [toInfo]
    rw [if_neg (by simp only [List.length_append, Nat.sub_zero]; omega)]
    rw [List.drop_zero, List.take_left]
    rw [search_in_block_single [0] v (by norm_num)]
  simp only [openThenGet, h3, hopen, hget]

/-- Writing two pairs with the same key, the first carrying a value whose
size estimate reaches the flush threshold, and reading the key back: the
first block (holding the earliest-added duplicate) is selected, and the
scan returns its u32-truncated value `v.take (v.length % 2^32)` — not the
second duplicate, and not the full first value. -/
theorem dup_big_pair_get (v : Bytes) (hbig : 4096 ≤ 9 + v.length)
    (hsmall : 27 + v.length < 2 ^ 64) :
    openThenGet ((writeAll SstWriter.new [([0], v), ([0], [7])]).finish) [0] =
      some (.ok (some (v.take (v.length % 2 ^ 32)))) := by
  have hBlen : (serBlock [([0], v)]).length = 13 + v.length := by
    simp only [serBlock, serKV, List.map_cons, List.map_nil, List.flatten_cons,
      List.flatten_nil, List.append_nil, List.length_append, length_natToLe,
      List.length_cons, List.length_nil]
    omega
  have hB2len : (serBlock [([0], ([7] : Bytes))]).length = 14 := by
    simp only [serBlock, serKV, List.map_cons, List.map_nil, List.flatten_cons,
      List.flatten_nil, List.append_nil, List.length_append, length_natToLe,
      List.length_cons, List.length_nil]
  -- step 1: the writer state after both adds
  have h1 : writeAll SstWriter.new [([0], v), ([0], [7])] =
      (SstWriter.new.add [0] v).add [0] [7] := by
    simp only [writeAll, List.foldl_cons, List.foldl_nil]
  have hszc : ((⟨[], DataBlock.new.add [0] v, [], 0, 4096⟩ : SstWriter)).current_block.size ≥
      ((⟨[], DataBlock.new.add [0] v, [], 0, 4096⟩ : SstWriter)).block_size_threshold := by
    show (DataBlock.new.add [0] v).size ≥ 4096
    simp only [DataBlock.add, DataBlock.new, List.length_cons, List.length_nil]
    omega
  have h2 : SstWriter.new.add [0] v =
      ((⟨[], DataBlock.new.add [0] v, [], 0, 4096⟩ : SstWriter)).flush_block := by
    rw [SstWriter.add]
    exact if_pos hszc
  have hne1 : ((⟨[], DataBlock.new.add [0] v, [], 0, 4096⟩ : SstWriter)).current_block.entries ≠ [] := by
    simp [DataBlock.add, DataBlock.new]
  have h2b : ((⟨[], DataBlock.new.add [0] v, [], 0, 4096⟩ : SstWriter)).flush_block =
      ((⟨serBlock [([0], v)], DataBlock.new,
        [⟨[0], 0, (serBlock [([0], v)]).length⟩],
        (serBlock [([0], v)]).length, 4096⟩ : SstWriter)) := by
    rw [flush_block_eq hne1]
    simp only [to_bytes_eq_serBlock, DataBlock.add, DataBlock.new, List.nil_append,
      Nat.zero_add, lastKeyD, List.getLast?_cons, List.getLast?_nil, Option.getD_none,
      Option.map_some, Option.getD_some]
    simp
  have hc2 : ¬ ((⟨serBlock [([0], v)], DataBlock.new.add [0] [7],
      [⟨[0], 0, (serBlock [([0], v)]).length⟩],
      (serBlock [([0], v)]).length, 4096⟩ : SstWriter)).current_block.size ≥
      ((⟨serBlock [([0], v)], DataBlock.new.add [0] [7],
      [⟨[0], 0, (serBlock [([0], v)]).length⟩],
      (serBlock [([0], v)]).length, 4096⟩ : SstWriter)).block_size_threshold := by
    show ¬ (DataBlock.new.add [0] [7]).size ≥ 4096
    simp only [DataBlock.add, DataBlock.new, List.length_cons, List.length_nil]
    omega
  have h4 : ((⟨serBlock [([0], v)], DataBlock.new,
      [⟨[0], 0, (serBlock [([0], v)]).length⟩],
      (serBlock [([0], v)]).length, 4096⟩ : SstWriter)).add [0] [7] =
      ((⟨serBlock [([0], v)], DataBlock.new.add [0] [7],
      [⟨[0], 0, (serBlock [([0], v)]).length⟩],
      (serBlock [([0], v)]).length, 4096⟩ : SstWriter)) := by
    rw [SstWriter.add]
    exact if_neg hc2
  have hne2 : ((⟨serBlock [([0], v)], DataBlock.new.add [0] [7],
      [⟨[0], 0, (serBlock [([0], v)]).length⟩],
      (serBlock [([0], v)]).length, 4096⟩ : SstWriter)).current_block.entries ≠ [] := by
    simp [DataBlock.add, DataBlock.new]
  -- step 2: the file finish writes
  have h5 : (writeAll SstWriter.new [([0], v), ([0], [7])]).finish =
      (serBlock [([0], v)] ++ serBlock [([0], [7])]) ++
        (serIndexBlock [⟨[0], 0, (serBlock [([0], v)]).length⟩,
            ⟨[0], (serBlock [([0], v)]).length, (serBlock [([0], ([7] : Bytes))]).length⟩] ++
          (natToLe 8 ((serBlock [([0], v)]).length + (serBlock [([0], ([7] : Bytes))]).length) ++
            (natToLe 8 (serIndexBlock [⟨[0], 0, (serBlock [([0], v)]).length⟩,
                ⟨[0], (serBlock [([0], v)]).length,
                  (serBlock [([0], ([7] : Bytes))]).length⟩]).length ++
              natToLe 8 MAGIC))) := by
    rw [h1, h2, h2b, h4, SstWriter.finish, flush_block_eq hne2]
    simp only [to_bytes_eq_serBlock, DataBlock.add, DataBlock.new, List.nil_append,
      Nat.zero_add, lastKeyD, List.getLast?_cons, List.getLast?_nil, Option.getD_none,
      Option.map_some, Option.getD_some, List.cons_append, List.append_assoc]
    simp
  have hparse : SstReader.parse_index
      (serIndexBlock [⟨[0], 0, (serBlock [([0], v)]).length⟩,
        ⟨[0], (serBlock [([0], v)]).length, (serBlock [([0], ([7] : Bytes))]).length⟩]) =
      .ok [toInfo ⟨[0], 0, (serBlock [([0], v)]).length⟩,
        toInfo ⟨[0], (serBlock [([0], v)]).length,
          (serBlock [([0], ([7] : Bytes))]).length⟩] := by
    have hb : ∀ e ∈ [(⟨[0], 0, (serBlock [([0], v)]).length⟩ : IndexEntry),
        ⟨[0], (serBlock [([0], v)]).length, (serBlock [([0], ([7] : Bytes))]).length⟩],
        e.last_key.length < 2 ^ 32 ∧ e.block_offset < 2 ^ 64 ∧ e.block_size < 2 ^ 64 := by
      intro e he
      rcases List.mem_cons.1 he with he1 | he2
      · rw [he1]
        refine ⟨by norm_num, by norm_num, ?_⟩
        show (serBlock [([0], v)]).length < 2 ^ 64
        rw [hBlen]
        omega
      · rw [List.mem_singleton.1 he2]
        refine ⟨by norm_num, ?_, ?_⟩
        · show (serBlock [([0], v)]).length < 2 ^ 64
          rw [hBlen]
          omega
        · show (serBlock [([0], ([7] : Bytes))]).length < 2 ^ 64
          rw [hB2len]
          norm_num
    have h := parse_index_ser [⟨[0], 0, (serBlock [([0], v)]).length⟩,
      ⟨[0], (serBlock [([0], v)]).length, (serBlock [([0], ([7] : Bytes))]).length⟩]
      [] hb (by norm_num)
    rwa [List.append_nil] at h
  have hopen := open_layout (serBlock [([0], v)] ++ serBlock [([0], [7])])
    (serIndexBlock [⟨[0], 0, (serBlock [([0], v)]).length⟩,
      ⟨[0], (serBlock [([0], v)]).length, (serBlock [([0], ([7] : Bytes))]).length⟩])
    [toInfo ⟨[0], 0, (serBlock [([0], v)]).length⟩,
      toInfo ⟨[0], (serBlock [([0], v)]).length, (serBlock [([0], ([7] : Bytes))]).length⟩]
    (by rw [List.length_append, hBlen, hB2len]; omega)
    (by
      simp only [serIndexBlock, IndexEntry.to_bytes, List.map_cons, List.map_nil,
        List.flatten_cons, List.flatten_nil, List.append_nil, List.length_append,
        length_natToLe, List.length_cons, List.length_nil]
      norm_num) hparse
  rw [List.length_append] at hopen
  -- step 3: the lookup selects the first block and scans it
  have hfind : ([toInfo ⟨[0], 0, (serBlock [([0], v)]).length⟩,
      toInfo ⟨[0], (serBlock [([0], v)]).length, (serBlock [([0], ([7] : Bytes))]).length⟩] :
      List IndexEntryInfo).find? (fun e => lexGe e.last_key [0]) =
      some (toInfo ⟨[0], 0, (serBlock [([0], v)]).length⟩) := by
    have hge : lexGe (([0] : Bytes)) [0] = true := by decide
    simp only [List.find?_cons, toInfo, hge]
  have hget : SstReader.get ⟨(serBlock [([0], v)] ++ serBlock [([0], [7])]) ++
      (serIndexBlock [⟨[0], 0, (serBlock [([0], v)]).length⟩,
          ⟨[0], (serBlock [([0], v)]).length, (serBlock [([0], ([7] : Bytes))]).length⟩] ++
        (natToLe 8 ((serBlock [([0], v)]).length + (serBlock [([0], ([7] : Bytes))]).length) ++
          (natToLe 8 (serIndexBlock [⟨[0], 0, (serBlock [([0], v)]).length⟩,
              ⟨[0], (serBlock [([0], v)]).length,
                (serBlock [([0], ([7] : Bytes))]).length⟩]).length ++
            natToLe 8 MAGIC))),
      [toInfo ⟨[0], 0, (serBlock [([0], v)]).length⟩,
        toInfo ⟨[0], (serBlock [([0], v)]).length,
          (serBlock [([0], ([7] : Bytes))]).length⟩]⟩ [0] =
      .ok (some (v.take (v.length % 2 ^ 32))) := by
    simp only [SstReader.get, hfind]
    simp only [toInfo]
    rw [if_neg (by simp only [List.length_append, Nat.sub_zero]; omega)]
    rw [List.drop_zero, List.append_assoc, List.take_left]
    rw [search_in_block_single [0] v (by norm_num)]
  simp only [openThenGet, h5, hopen, hget]

/-- Claim C9 counterexample: the pairs `([0], 2^32 zero bytes)` and
`([0], [7])` are added in sorted order and contain the key `[0]` twice;
the first matching pair is the first one, yet `get [0]` returns
`Some []` — neither the first duplicate value (the u32 `val_len` field
wraps to `0`) nor the second — so the claim as stated, over arbitrary
duplicate-key inputs, is false on the code. -/
theorem c9_duplicate_big_value_counterexample :
    ([([0], List.replicate (2 ^ 32) (0 : Byte)), ([0], [7])] : List KV).Pairwise
      (fun p q => lexLe p.1 q.1 = true) ∧
    2 ≤ (([([0], List.replicate (2 ^ 32) (0 : Byte)), ([0], [7])] : List KV).filter
      (fun p => p.1 == [0])).length ∧
    ([([0], List.replicate (2 ^ 32) (0 : Byte)), ([0], [7])] : List KV).find?
      (fun q => q.1 == [0]) = some ([0], List.replicate (2 ^ 32) (0 : Byte)) ∧
    openThenGet ((writeAll SstWriter.new
        [([0], List.replicate (2 ^ 32) (0 : Byte)), ([0], [7])]).finish) [0] =
      some (.ok (some ([] : Bytes))) ∧
    List.replicate (2 ^ 32) (0 : Byte) ≠ ([] : Bytes) := by
  refine ⟨by decide, by decide, by rfl, ?_, ?_⟩
  · have h := dup_big_pair_get (List.replicate (2 ^ 32) (0 : Byte))
      (by rw [List.length_replicate]; norm_num)
      (by rw [List.length_replicate]; norm_num)
    rw [List.length_replicate] at h
    simpa only [Nat.mod_self, List.take_zero] using h
  · intro hcon
    have hlen := List.length_replicate (2 ^ 32) (0 : Byte)
    rw [hcon] at hlen
    simp at hlen

/-- Claim C1 counterexample: writing the single sorted pair
`([0], 2^32 zero bytes)` and reading key `[0]` back returns `Some []`,
not the written value — the u32 `val_len` field wraps to `0` — so the
round-trip claim is false for arbitrary value sizes. -/
theorem c1_big_value_counterexample :
    openThenGet ((writeAll SstWriter.new
        [([0], List.replicate (2 ^ 32) (0 : Byte))]).finish) [0] =
      some (.ok (some ([] : Bytes))) ∧
    List.replicate (2 ^ 32) (0 : Byte) ≠ ([] : Bytes) := by
  constructor
  · have h := single_big_pair_get (List.replicate (2 ^ 32) (0 : Byte))
      (by rw [List.length_replicate]; norm_num)
      (by rw [List.length_replicate]; norm_num)
    rw [List.length_replicate] at h
    simpa only [Nat.mod_self, List.take_zero] using h
  · intro hcon
    have hlen := List.length_replicate (2 ^ 32) (0 : Byte)
    rw [hcon] at hlen
    simp at hlen

end Sst
